import Mathlib

/-!
Shallow embedding of the second-quantization kernel in `src/lib.rs`
(`rust_ed`): Slater determinants as 64-bit occupation words, elementary
creation/annihilation operators with fermionic phases, and the operator
application engine on sparse superpositions.

Modelling conventions:
  * `u64` values are `Nat`; where the Rust code relies on 64-bit word
    semantics (bitwise NOT, wrapping addition) this is made explicit via
    `u64not` and `% 2 ^ 64`, and theorems carry the in-range hypotheses
    (`index < 2 ^ 64`, positions `< 64`) under which the word model is
    faithful to the Rust code.
  * `f64` amplitudes are modelled as `ℚ` (exact arithmetic); the pruning
    tolerance `f64::EPSILON = 2 ^ (-52)` becomes the rational `eps`.
  * `HashMap<Slater, f64>` is modelled as an association list
    (`AMap := List (Slater × ℚ)`) with at most one entry per key; the
    `entry(..).or_insert(0) += v` idiom is `entryAdd`, `retain` is a
    filter, and `collect` from a pair list is a fold of `insertPair`.
-/

set_option maxHeartbeats 1000000

namespace RustEd

/-- `f64::EPSILON` as an exact rational, `2 ^ (-52)`. -/
def eps : ℚ := 1 / 2 ^ 52

/-- Rust `!x` on a `u64`: bitwise complement within the 64-bit word. -/
def u64not (x : Nat) : Nat := (2 ^ 64 - 1) ^^^ x

/-- The mask `(1 << pos) - 1` selecting the bit positions strictly below
`pos`, as computed in `Slater::apply`. -/
def belowMask (pos : Nat) : Nat := (1 <<< pos) - 1

/-- `u64::count_ones`: the number of set bits among positions `0..63` of
the 64-bit word. -/
def countOnes (x : Nat) : Nat :=
  ((Finset.range 64).filter (fun i => x.testBit i)).card

/-- The `AC` enum of `lib.rs`: a creation or annihilation operator at a
single-particle state index. -/
inductive AC where
  | Create : Nat → AC
  | Annihilate : Nat → AC
  deriving DecidableEq

/-- The `Operator` struct of `lib.rs`: a sum of terms, each a weight
together with a sequence of elementary operators. -/
structure Operator where
  terms : List (ℚ × List AC)

/-- `Operator::new`. -/
def Operator.new (terms : List (ℚ × List AC)) : Operator := ⟨terms⟩

/-- The `Slater` struct of `lib.rs`: a determinant identified by its
64-bit occupation word. -/
structure Slater where
  index : Nat
  deriving DecidableEq

/-- `Slater::new`. -/
def Slater.new (index : Nat) : Slater := ⟨index⟩

/-- The loop body of `Slater::from_vec`: accumulate `index += 1 << i`
(wrapping, as 64-bit addition), reject an index already seen (the Rust
code keeps the seen indices sorted and probes with `binary_search`,
modelled by sorted insertion and membership), and recurse. -/
def fromVecAux : List Nat → Nat → List Nat → Except String Slater
  | [], index, _ => Except.ok ⟨index⟩
  | i :: rest, index, added =>
    let index2 := (index + 1 <<< i) % 2 ^ 64
    if i ∈ added then Except.error ("State array contains repeated index!")
    else fromVecAux rest index2 (List.orderedInsert (fun a b => a ≤ b) i added)

/-- `Slater::from_vec`. -/
def Slater.fromVec (arr : List Nat) : Except String Slater :=
  fromVecAux arr 0 []

/-- `Slater::create`: fails if bit `j` is set, else sets bit `j`. -/
def Slater.create (s : Slater) (j : Nat) : Option Slater :=
  if s.index &&& (1 <<< j) = 0 then some ⟨s.index ||| (1 <<< j)⟩ else none

/-- `Slater::annihilate`: fails if bit `j` is clear, else clears bit `j`
via `index & !(1 << j)`. -/
def Slater.annihilate (s : Slater) (j : Nat) : Option Slater :=
  if s.index &&& (1 <<< j) = 0 then none
  else some ⟨s.index &&& u64not (1 <<< j)⟩

/-- `Slater::apply`: apply one elementary operator, computing the
fermionic sign.  For `Create(pos)` the sign is `+1` iff
`(!index & ((1 << pos) - 1)).count_ones()` is even (parity of unoccupied
bits strictly below `pos`); for `Annihilate(pos)` it is `+1` iff
`(index & ((1 << pos) - 1)).count_ones()` is even (parity of occupied
bits strictly below `pos`). -/
def Slater.apply (s : Slater) (c : AC) : Option (Int × Slater) :=
  match c with
  | AC.Create pos =>
    match s.create pos with
    | some ns =>
      if countOnes (u64not s.index &&& belowMask pos) % 2 = 0 then some (1, ns)
      else some (-1, ns)
    | none => none
  | AC.Annihilate pos =>
    match s.annihilate pos with
    | some ns =>
      if countOnes (s.index &&& belowMask pos) % 2 = 0 then some (1, ns)
      else some (-1, ns)
    | none => none

/-- Sparse amplitude maps: the model of `HashMap<Slater, f64>`. -/
abbrev AMap := List (Slater × ℚ)

/-- First value stored under key `d`, if any (`HashMap::get`). -/
def valFind : AMap → Slater → Option ℚ
  | [], _ => none
  | p :: rest, d => if p.1 = d then some p.2 else valFind rest d

/-- Value stored under key `d`, defaulting to `0` when absent. -/
def valAt (m : AMap) (d : Slater) : ℚ := (valFind m d).getD 0

/-- The key list of an amplitude map. -/
def keys (m : AMap) : List Slater := m.map Prod.fst

/-- The map has at most one entry per Determinant. -/
def KeysNodup (m : AMap) : Prop := (keys m).Nodup

/-- `HashMap::insert` (used by `collect` in `State::new`): overwrite the
value under an existing key, else append a fresh entry. -/
def insertPair : AMap → Slater → ℚ → AMap
  | [], k, v => [(k, v)]
  | p :: rest, k, v =>
    if p.1 = k then (p.1, v) :: rest else p :: insertPair rest k v

/-- The `*map.entry(k).or_insert(0) += v` idiom of `State::apply`: add
`v` to the value under `k`, inserting `0 + v` when `k` is absent. -/
def entryAdd : AMap → Slater → ℚ → AMap
  | [], k, v => [(k, v)]
  | p :: rest, k, v =>
    if p.1 = k then (p.1, p.2 + v) :: rest else p :: entryAdd rest k v

/-- `map.retain(|_, amp| amp.abs() > f64::EPSILON)`. -/
def retainAbove (m : AMap) : AMap := m.filter (fun p => decide (eps < |p.2|))

/-- The `State` struct of `lib.rs`. -/
structure State where
  amplitudes : AMap

/-- `State::new`: `states.into_iter().collect()` — insert the supplied
pairs in order, a later pair overwriting an earlier one with the same
key.  No pruning is performed. -/
def State.new (states : List (Slater × ℚ)) : State :=
  ⟨states.foldl (fun m p => insertPair m p.1 p.2) []⟩

/-- The inner loop of `State::apply` over the current working set
`tmp_states`: apply the elementary operator `c` to each pair,
accumulating into `next_states`; if any application fails the Rust code
runs `next_states.clear(); continue 'states;`, modelled by returning
`none`. -/
def stepPairs (c : AC) : List (Slater × ℚ) → AMap → Option AMap
  | [], next => some next
  | p :: rest, next =>
    match p.1.apply c with
    | some pns => stepPairs c rest (entryAdd next pns.2 (p.2 * (pns.1 : ℚ)))
    | none => none

/-- The loop of `State::apply` over the (already reversed) elementary
operators of one term: step the working set, prune entries with
`|amp| <= eps`, and continue; a failure aborts the whole source state
(the `continue 'states` path). -/
def threadTerm : List AC → AMap → Option AMap
  | [], tmp => some tmp
  | c :: cs, tmp =>
    match stepPairs c tmp [] with
    | some next => threadTerm cs (retainAbove next)
    | none => none

/-- One iteration of the `'states` loop of `State::apply`: thread the
term through the single source pair and accumulate `fac * v` into the
result map; a failed thread contributes nothing. -/
def applySource (fac : ℚ) (ops : List AC) (res : AMap) (state : Slater) (amp : ℚ) : AMap :=
  match threadTerm ops [(state, amp)] with
  | some tmp => tmp.foldl (fun r p => entryAdd r p.1 (fac * p.2)) res
  | none => res

/-- The `'states` loop of `State::apply` for one term. -/
def applyTermFold (res : AMap) (fac : ℚ) (ops : List AC) (sources : AMap) : AMap :=
  sources.foldl (fun r p => applySource fac ops r p.1 p.2) res

/-- `State::apply` up to (but excluding) the final
`res.retain(|_, v| v.abs() > f64::EPSILON)`: for each term, reverse its
operator sequence and run the `'states` loop over all sources. -/
def State.applyRaw (st : State) (op : Operator) : AMap :=
  op.terms.foldl (fun r t => applyTermFold r t.1 t.2.reverse st.amplitudes) []

/-- `State::apply`: the accumulated result map, finally pruned of all
entries with `|amplitude| <= f64::EPSILON`. -/
def State.apply (st : State) (op : Operator) : State :=
  ⟨retainAbove (st.applyRaw op)⟩

/-- Spec-side variant of `stepPairs` following the words of the spec
(§4.2/§7): a pair on which `apply_elementary` fails simply vanishes,
while the remaining pairs of the working set continue to be processed. -/
def stepPairsBranch (c : AC) : List (Slater × ℚ) → AMap → AMap
  | [], next => next
  | p :: rest, next =>
    match p.1.apply c with
    | some pns => stepPairsBranch c rest (entryAdd next pns.2 (p.2 * (pns.1 : ℚ)))
    | none => stepPairsBranch c rest next

/-- Spec-side term threading built on `stepPairsBranch`: no abort, only
per-branch disappearance. -/
def threadTermBranch : List AC → AMap → AMap
  | [], tmp => tmp
  | c :: cs, tmp => threadTermBranch cs (retainAbove (stepPairsBranch c tmp []))

/-- Spec-side variant of `applySource` using `threadTermBranch`. -/
def applySourceBranch (fac : ℚ) (ops : List AC) (res : AMap) (state : Slater) (amp : ℚ) : AMap :=
  (threadTermBranch ops [(state, amp)]).foldl (fun r p => entryAdd r p.1 (fac * p.2)) res

/-- Spec-side variant of `applyTermFold`. -/
def applyTermFoldBranch (res : AMap) (fac : ℚ) (ops : List AC) (sources : AMap) : AMap :=
  sources.foldl (fun r p => applySourceBranch fac ops r p.1 p.2) res

/-- Spec-side variant of `State::apply` in which a failing branch only
removes that branch, never aborting its siblings. -/
def State.applyBranch (st : State) (op : Operator) : State :=
  ⟨retainAbove (op.terms.foldl
    (fun r t => applyTermFoldBranch r t.1 t.2.reverse st.amplitudes) [])⟩

/-- The chain of elementary-operator applications of one term (already
in application order) on one source determinant: the accumulated sign
and final determinant, or `none` as soon as one application fails. -/
def chainApply : List AC → Slater → Option (Int × Slater)
  | [], s => some (1, s)
  | c :: cs, s =>
    match s.apply c with
    | some pns =>
      match chainApply cs pns.2 with
      | some q => some (pns.1 * q.1, q.2)
      | none => none
    | none => none

/-- The contribution `weight × phase_product × source_amplitude` of one
(term, source) combination to the output determinant `d`; `0` when the
chain fails or lands elsewhere. -/
def pathContrib (fac : ℚ) (ops : List AC) (d : Slater) (src : Slater × ℚ) : ℚ :=
  match chainApply ops src.1 with
  | some q => if q.2 = d then fac * (q.1 : ℚ) * src.2 else 0
  | none => 0

/-- The spec's determinism requirement (§4.3): the sum of
`weight × phase_product × source_amplitude` over every (term, source)
combination reaching `d` through a non-failing chain, each path counted
exactly once. -/
def specSum (st : State) (op : Operator) (d : Slater) : ℚ :=
  (op.terms.map
    (fun t => (st.amplitudes.map (pathContrib t.1 t.2.reverse d)).sum)).sum

/-- The successive working sets produced while threading a term: the set
before each elementary-operator step and the final set (on the abort
path, the set at the moment of failure is the last one recorded). -/
def threadSets : List AC → AMap → List AMap
  | [], tmp => [tmp]
  | c :: cs, tmp =>
    match stepPairs c tmp [] with
    | some next => tmp :: threadSets cs (retainAbove next)
    | none => [tmp]

/-- Number of occupied single-particle states of `d` strictly below
position `j` (the spec's sign-rule count for annihilation). -/
def occupiedBelow (d : Slater) (j : Nat) : Nat :=
  ((Finset.range j).filter (fun i => d.index.testBit i)).card

/-- Number of unoccupied single-particle states of `d` strictly below
position `j` (the spec's sign-rule count for creation). -/
def unoccupiedBelow (d : Slater) (j : Nat) : Nat :=
  ((Finset.range j).filter (fun i => d.index.testBit i = false)).card

/-! ## Helper lemmas on words, masks and parities -/

theorem and_one_shiftLeft_eq_zero_iff (d j : Nat) :
    d &&& (1 <<< j) = 0 ↔ d.testBit j = false := by
  rw [Nat.shiftLeft_eq, one_mul, Nat.and_two_pow]
  cases h : d.testBit j <;> simp [h]

theorem belowMask_eq (j : Nat) : belowMask j = 2 ^ j - 1 := by
  rw [belowMask, Nat.shiftLeft_eq, one_mul]

theorem countOnes_occ (d : Slater) (j : Nat) (hj : j ≤ 64) :
    countOnes (d.index &&& belowMask j) = occupiedBelow d j := by
  rw [countOnes, belowMask_eq, occupiedBelow]
  congr 1
  ext i
  simp only [Finset.mem_filter, Finset.mem_range, Nat.testBit_land,
    Nat.testBit_two_pow_sub_one, Bool.and_eq_true, decide_eq_true_eq]
  constructor
  · rintro ⟨_, hb, hij⟩
    exact ⟨hij, hb⟩
  · rintro ⟨hij, hb⟩
    exact ⟨lt_of_lt_of_le hij hj, hb, hij⟩

theorem countOnes_unocc (d : Slater) (j : Nat) (hj : j ≤ 64) :
    countOnes (u64not d.index &&& belowMask j) = unoccupiedBelow d j := by
  rw [countOnes, belowMask_eq, unoccupiedBelow, u64not]
  congr 1
  ext i
  simp only [Finset.mem_filter, Finset.mem_range, Nat.testBit_land, Nat.testBit_xor,
    Nat.testBit_two_pow_sub_one, Bool.and_eq_true, decide_eq_true_eq]
  constructor
  · rintro ⟨hi, hb, hij⟩
    simp [hi] at hb
    exact ⟨hij, hb⟩
  · rintro ⟨hij, hb⟩
    have hi : i < 64 := lt_of_lt_of_le hij hj
    refine ⟨hi, ?_, hij⟩
    simp [hb, hi]

theorem unocc_add_occ (d : Slater) (j : Nat) :
    unoccupiedBelow d j + occupiedBelow d j = j := by
  have h := @Finset.filter_card_add_filter_neg_card_eq_card _ (Finset.range j)
    (fun i => d.index.testBit i = true) _ _
  rw [Finset.card_range] at h
  rw [unoccupiedBelow, occupiedBelow]
  rw [Nat.add_comm] at h
  convert h using 3
  ext i
  simp [Bool.not_eq_true]

theorem sign_mul_sign (a b : Nat) :
    (if a % 2 = 0 then (1 : Int) else -1) * (if b % 2 = 0 then (1 : Int) else -1)
      = if (a + b) % 2 = 0 then 1 else -1 := by
  rcases Nat.mod_two_eq_zero_or_one a with ha | ha <;>
    rcases Nat.mod_two_eq_zero_or_one b with hb | hb <;>
      simp [ha, hb, Nat.add_mod]

theorem or_and_not_restore (x j : Nat) (hx : x < 2 ^ 64) (hj : j < 64)
    (hb : x.testBit j = false) : (x ||| 1 <<< j) &&& u64not (1 <<< j) = x := by
  apply Nat.eq_of_testBit_eq
  intro i
  rw [Nat.testBit_land, Nat.testBit_lor, u64not, Nat.testBit_xor,
    Nat.testBit_two_pow_sub_one, Nat.shiftLeft_eq, one_mul, Nat.testBit_two_pow]
  by_cases hij : j = i
  · subst hij
    simp [hb, hj]
  · by_cases hi : i < 64
    · simp [hij, hi]
    · have hxi : x.testBit i = false :=
        Nat.testBit_lt_two_pow
          (lt_of_lt_of_le hx (Nat.pow_le_pow_right (by norm_num) (le_of_not_lt hi)))
      simp [hij, hi, hxi]

theorem or_pow_and_mask (x j : Nat) :
    (x ||| 1 <<< j) &&& belowMask j = x &&& belowMask j := by
  apply Nat.eq_of_testBit_eq
  intro i
  rw [belowMask_eq, Nat.testBit_land, Nat.testBit_land, Nat.testBit_lor,
    Nat.shiftLeft_eq, one_mul, Nat.testBit_two_pow, Nat.testBit_two_pow_sub_one]
  by_cases hij : i < j
  · have hne : ¬ (j = i) := by omega
    simp [hij, hne]
  · simp [hij]

/-! ## Claim C7: create on occupied / annihilate on unoccupied yields none -/

/-- C7: for every Determinant `d` and position `j`, `Slater::apply` on
`Create(j)` returns `None` when bit `j` of `d` is set, and on
`Annihilate(j)` returns `None` when bit `j` of `d` is unset. -/
theorem claim_C7 (d : Slater) (j : Nat) :
    (d.index.testBit j = true → d.apply (AC.Create j) = none) ∧
    (d.index.testBit j = false → d.apply (AC.Annihilate j) = none) := by
  constructor <;> intro h
  · have hc : ¬ (d.index &&& (1 <<< j) = 0) := by
      rw [and_one_shiftLeft_eq_zero_iff, h]
      simp
    simp [Slater.apply, Slater.create, hc]
  · have hc : d.index &&& (1 <<< j) = 0 := (and_one_shiftLeft_eq_zero_iff _ _).mpr h
    simp [Slater.apply, Slater.annihilate, hc]

theorem claim_C7_witness :
    (Slater.new 2).apply (AC.Create 1) = none ∧
      (Slater.new 2).apply (AC.Annihilate 0) = none :=
  ⟨(claim_C7 (Slater.new 2) 1).1 (by decide), (claim_C7 (Slater.new 2) 0).2 (by decide)⟩

/-! ## Claim C9: shift/mask arithmetic is 64-bit safe exactly below 64 -/

/-- C9: the below-`j` mask is empty at `j = 0` (no underflow), and the
shift `1 <<< j` fits the 64-bit word exactly when `j < 64`, while the
mask value fits exactly when `j ≤ 64`. -/
theorem claim_C9 :
    belowMask 0 = 0 ∧ (∀ j : Nat, 1 <<< j < 2 ^ 64 ↔ j < 64) ∧
      (∀ j : Nat, belowMask j < 2 ^ 64 ↔ j ≤ 64) := by
  refine ⟨rfl, fun j => ?_, fun j => ?_⟩
  · rw [Nat.shiftLeft_eq, one_mul]
    constructor
    · intro h
      by_contra hc
      push_neg at hc
      have h64 : (2 : Nat) ^ 64 ≤ 2 ^ j := Nat.pow_le_pow_right (by norm_num) hc
      omega
    · intro h
      exact Nat.pow_lt_pow_right one_lt_two h
  · rw [belowMask_eq]
    constructor
    · intro h
      by_contra hc
      push_neg at hc
      have h65 : (2 : Nat) ^ 65 ≤ 2 ^ j := Nat.pow_le_pow_right (by norm_num) hc
      have : (2 : Nat) ^ 65 = 2 ^ 64 * 2 := by ring
      omega
    · intro h
      have : (2 : Nat) ^ j ≤ 2 ^ 64 := Nat.pow_le_pow_right (by norm_num) h
      have hpos : 0 < (2 : Nat) ^ j := Nat.pos_pow_of_pos j (by norm_num)
      omega

/-! ## Claim C4: the sign rule of Slater::apply -/

/-- C4: when `Slater::apply` succeeds on `Create(j)` the sign is `+1`
exactly when the number of unoccupied bits of `d` strictly below `j` is
even (else `-1`), and on `Annihilate(j)` the sign is `+1` exactly when
the number of occupied bits strictly below `j` is even (else `-1`). -/
theorem claim_C4 (d : Slater) (j : Nat) (hj : j < 64) :
    (∀ p ns, d.apply (AC.Create j) = some (p, ns) →
        p = if unoccupiedBelow d j % 2 = 0 then 1 else -1) ∧
    (∀ p ns, d.apply (AC.Annihilate j) = some (p, ns) →
        p = if occupiedBelow d j % 2 = 0 then 1 else -1) := by
  constructor <;> intro p ns h
  · rcases hc : d.create j with _ | ns2
    · simp [Slater.apply, hc] at h
    · have happ : d.apply (AC.Create j)
          = some (if unoccupiedBelow d j % 2 = 0 then 1 else -1, ns2) := by
        simp only [Slater.apply]
        rw [hc, countOnes_unocc d j (le_of_lt hj)]
        by_cases hpar : unoccupiedBelow d j % 2 = 0 <;> simp [hpar]
      rw [happ] at h
      simp only [Option.some.injEq, Prod.mk.injEq] at h
      exact h.1.symm
  · rcases hc : d.annihilate j with _ | ns2
    · simp [Slater.apply, hc] at h
    · have happ : d.apply (AC.Annihilate j)
          = some (if occupiedBelow d j % 2 = 0 then 1 else -1, ns2) := by
        simp only [Slater.apply]
        rw [hc, countOnes_occ d j (le_of_lt hj)]
        by_cases hpar : occupiedBelow d j % 2 = 0 <;> simp [hpar]
      rw [happ] at h
      simp only [Option.some.injEq, Prod.mk.injEq] at h
      exact h.1.symm

theorem claim_C4_witness :
    (Slater.new 0).apply (AC.Create 1) = some (-1, Slater.new 2) ∧
      ((-1 : Int) = if unoccupiedBelow (Slater.new 0) 1 % 2 = 0 then 1 else -1) :=
  ⟨by decide, (claim_C4 (Slater.new 0) 1 (by norm_num)).1 (-1) (Slater.new 2) (by decide)⟩

/-! ## Claim C3: create-then-annihilate round trip -/

/-- C3 counterexample: on the empty determinant at position 1,
`Create(1)` then `Annihilate(1)` returns the original determinant, but
the product of the two signs is `-1`, not `+1`. -/
theorem claim_C3_counterexample :
    (Slater.new 0).apply (AC.Create 1) = some (-1, Slater.new 2) ∧
      (Slater.new 2).apply (AC.Annihilate 1) = some (1, Slater.new 0) ∧
      ((-1 : Int) * 1 ≠ 1) := by
  refine ⟨by decide, by decide, by decide⟩

/-- C3 (amended): `Create(j)` then `Annihilate(j)` on a determinant with
`j` unoccupied returns the original determinant, and the product of the
two signs is `+1` exactly when `j` is even, i.e. `(-1) ^ j`. -/
theorem claim_C3_amended (d : Slater) (j : Nat) (hd : d.index < 2 ^ 64) (hj : j < 64)
    (hfree : d.index.testBit j = false) :
    ∃ p1 p2 ns, d.apply (AC.Create j) = some (p1, ns) ∧
      ns.apply (AC.Annihilate j) = some (p2, d) ∧
      p1 * p2 = if j % 2 = 0 then 1 else -1 := by
  have hc0 : d.index &&& (1 <<< j) = 0 := (and_one_shiftLeft_eq_zero_iff _ _).mpr hfree
  have hcreate : d.create j = some ⟨d.index ||| (1 <<< j)⟩ := by
    rw [Slater.create, if_pos hc0]
  have hbit2 : (d.index ||| (1 <<< j)).testBit j = true := by
    rw [Nat.testBit_lor, Nat.shiftLeft_eq, one_mul, Nat.testBit_two_pow]
    simp
  have hc1 : ¬ ((d.index ||| (1 <<< j)) &&& (1 <<< j) = 0) := by
    rw [and_one_shiftLeft_eq_zero_iff, hbit2]
    simp
  have hannihilate : (Slater.mk (d.index ||| (1 <<< j))).annihilate j = some d := by
    rw [Slater.annihilate]
    simp only [if_neg hc1]
    rw [or_and_not_restore d.index j hd hj hfree]
  refine ⟨if unoccupiedBelow d j % 2 = 0 then 1 else -1,
    if occupiedBelow d j % 2 = 0 then 1 else -1, ⟨d.index ||| (1 <<< j)⟩, ?_, ?_, ?_⟩
  · simp only [Slater.apply]
    rw [hcreate, countOnes_unocc d j (le_of_lt hj)]
    by_cases hpar : unoccupiedBelow d j % 2 = 0 <;> simp [hpar]
  · simp only [Slater.apply]
    rw [hannihilate]
    have hmask : (Slater.mk (d.index ||| (1 <<< j))).index &&& belowMask j
        = d.index &&& belowMask j := or_pow_and_mask d.index j
    rw [hmask, countOnes_occ d j (le_of_lt hj)]
    by_cases hpar : occupiedBelow d j % 2 = 0 <;> simp [hpar]
  · rw [sign_mul_sign, unocc_add_occ]

theorem claim_C3_amended_witness :
    ∃ p1 p2 ns, (Slater.new 5).apply (AC.Create 1) = some (p1, ns) ∧
      ns.apply (AC.Annihilate 1) = some (p2, Slater.new 5) ∧
      p1 * p2 = if 1 % 2 = 0 then 1 else -1 :=
  claim_C3_amended (Slater.new 5) 1 (by decide) (by norm_num) (by decide)

/-! ## Helper lemmas on amplitude maps -/

theorem valAt_nil (d : Slater) : valAt [] d = 0 := rfl

theorem valAt_cons (p : Slater × ℚ) (rest : AMap) (d : Slater) :
    valAt (p :: rest) d = if p.1 = d then p.2 else valAt rest d := by
  rw [valAt, valFind]
  by_cases h : p.1 = d <;> simp [h, valAt]

theorem valAt_entryAdd (m : AMap) (k : Slater) (v : ℚ) (d : Slater) :
    valAt (entryAdd m k v) d = valAt m d + (if d = k then v else 0) := by
  induction m with
  | nil =>
    rw [entryAdd, valAt_nil, valAt_cons]
    by_cases h : d = k
    · simp [h]
    · have h2 : ¬ (k = d) := fun hh => h hh.symm
      simp [h, h2, valAt_nil]
  | cons p rest ih =>
    rw [entryAdd]
    by_cases hpk : p.1 = k
    · rw [if_pos hpk, valAt_cons, valAt_cons]
      by_cases hd : p.1 = d
      · have hdk : d = k := by rw [← hd, hpk]
        simp [hd, hdk]
      · have hdk : ¬ (d = k) := by
          rw [← hpk]
          exact fun hh => hd hh.symm
        simp [hd, hdk]
    · rw [if_neg hpk, valAt_cons, valAt_cons, ih]
      by_cases hd : p.1 = d
      · have hdk : ¬ (d = k) := fun hh => hpk (hd.trans hh)
        simp [hd, hdk]
      · simp [hd]

theorem mem_keys_cons (a : Slater) (p : Slater × ℚ) (rest : AMap) :
    a ∈ keys (p :: rest) ↔ a = p.1 ∨ a ∈ keys rest := by
  simp [keys]

theorem keys_entryAdd (m : AMap) (k : Slater) (v : ℚ) :
    keys (entryAdd m k v) = if k ∈ keys m then keys m else keys m ++ [k] := by
  induction m with
  | nil => simp [entryAdd, keys]
  | cons p rest ih =>
    by_cases hpk : p.1 = k
    · rw [entryAdd, if_pos hpk]
      have hk : k ∈ keys (p :: rest) := by
        rw [mem_keys_cons]
        exact Or.inl hpk.symm
      rw [if_pos hk]
      simp [keys]
    · rw [entryAdd, if_neg hpk]
      have hmem : k ∈ keys (p :: rest) ↔ k ∈ keys rest := by
        rw [mem_keys_cons]
        constructor
        · rintro (h | h)
          · exact absurd h.symm hpk
          · exact h
        · exact Or.inr
      have hcons : keys (p :: entryAdd rest k v) = p.1 :: keys (entryAdd rest k v) := rfl
      rw [hcons, ih]
      by_cases hk : k ∈ keys rest
      · rw [if_pos hk, if_pos (hmem.mpr hk)]
        rfl
      · rw [if_neg hk, if_neg (fun hh => hk (hmem.mp hh))]
        rfl

theorem nodup_append_singleton (l : List Slater) (k : Slater) (h : l.Nodup)
    (hk : k ∉ l) : (l ++ [k]).Nodup := by
  refine List.Nodup.append h (List.nodup_singleton k) ?_
  intro a ha hak
  rw [List.mem_singleton] at hak
  subst hak
  exact hk ha

theorem keysNodup_entryAdd (m : AMap) (k : Slater) (v : ℚ) (h : KeysNodup m) :
    KeysNodup (entryAdd m k v) := by
  rw [KeysNodup, keys_entryAdd]
  by_cases hk : k ∈ keys m
  · simpa [hk] using h
  · rw [if_neg hk]
    exact nodup_append_singleton (keys m) k h hk

theorem keys_insertPair (m : AMap) (k : Slater) (v : ℚ) :
    keys (insertPair m k v) = if k ∈ keys m then keys m else keys m ++ [k] := by
  induction m with
  | nil => simp [insertPair, keys]
  | cons p rest ih =>
    by_cases hpk : p.1 = k
    · rw [insertPair, if_pos hpk]
      have hk : k ∈ keys (p :: rest) := by
        rw [mem_keys_cons]
        exact Or.inl hpk.symm
      rw [if_pos hk]
      simp [keys]
    · rw [insertPair, if_neg hpk]
      have hmem : k ∈ keys (p :: rest) ↔ k ∈ keys rest := by
        rw [mem_keys_cons]
        constructor
        · rintro (h | h)
          · exact absurd h.symm hpk
          · exact h
        · exact Or.inr
      have hcons : keys (p :: insertPair rest k v) = p.1 :: keys (insertPair rest k v) := rfl
      rw [hcons, ih]
      by_cases hk : k ∈ keys rest
      · rw [if_pos hk, if_pos (hmem.mpr hk)]
        rfl
      · rw [if_neg hk, if_neg (fun hh => hk (hmem.mp hh))]
        rfl

theorem keysNodup_insertPair (m : AMap) (k : Slater) (v : ℚ) (h : KeysNodup m) :
    KeysNodup (insertPair m k v) := by
  rw [KeysNodup, keys_insertPair]
  by_cases hk : k ∈ keys m
  · simpa [hk] using h
  · rw [if_neg hk]
    exact nodup_append_singleton (keys m) k h hk

theorem keysNodup_nil : KeysNodup [] := List.nodup_nil

theorem keys_retainAbove_subset (m : AMap) (a : Slater)
    (h : a ∈ keys (retainAbove m)) : a ∈ keys m := by
  rw [retainAbove, keys, List.mem_map] at h
  obtain ⟨p, hp, rfl⟩ := h
  rw [keys, List.mem_map]
  exact ⟨p, List.mem_of_mem_filter hp, rfl⟩

theorem keysNodup_retainAbove (m : AMap) (h : KeysNodup m) : KeysNodup (retainAbove m) :=
  List.Nodup.sublist (List.Sublist.map Prod.fst (List.filter_sublist m)) h

theorem valFind_eq_none_of_not_mem (m : AMap) (d : Slater) (h : d ∉ keys m) :
    valFind m d = none := by
  induction m with
  | nil => rfl
  | cons p rest ih =>
    rw [mem_keys_cons] at h
    push_neg at h
    rw [valFind, if_neg (fun hh => h.1 hh.symm)]
    exact ih h.2

theorem valFind_retainAbove (m : AMap) (d : Slater) (h : KeysNodup m) :
    valFind (retainAbove m) d
      = (valFind m d).bind (fun v => if eps < |v| then some v else none) := by
  induction m with
  | nil => rfl
  | cons p rest ih =>
    have hc : keys (p :: rest) = p.1 :: keys rest := rfl
    rw [KeysNodup, hc, List.nodup_cons] at h
    by_cases hpd : p.1 = d
    · have hdrest : d ∉ keys rest := hpd ▸ h.1
      by_cases hv : eps < |p.2|
      · rw [retainAbove, List.filter_cons, if_pos (decide_eq_true hv)]
        simp only [valFind]
        rw [if_pos hpd, if_pos hpd]
        simp [hv]
      · rw [retainAbove, List.filter_cons,
          if_neg (fun hh => hv (of_decide_eq_true hh))]
        simp only [valFind]
        rw [if_pos hpd]
        rw [show (some p.2).bind (fun v => if eps < |v| then some v else none)
            = if eps < |p.2| then some p.2 else none from rfl]
        rw [if_neg hv]
        exact valFind_eq_none_of_not_mem _ _
          (fun hh => hdrest (keys_retainAbove_subset rest d hh))
    · by_cases hv : eps < |p.2|
      · rw [retainAbove, List.filter_cons, if_pos (decide_eq_true hv)]
        simp only [valFind]
        rw [if_neg hpd, if_neg hpd]
        exact ih h.2
      · rw [retainAbove, List.filter_cons,
          if_neg (fun hh => hv (of_decide_eq_true hh))]
        simp only [valFind]
        rw [if_neg hpd]
        exact ih h.2

theorem keysNodup_foldl_entryAdd (fac : ℚ) (l : List (Slater × ℚ)) :
    ∀ res : AMap, KeysNodup res →
      KeysNodup (l.foldl (fun r p => entryAdd r p.1 (fac * p.2)) res) := by
  induction l with
  | nil => intro res h; exact h
  | cons p rest ih =>
    intro res h
    exact ih _ (keysNodup_entryAdd _ _ _ h)

theorem keysNodup_applySource (fac : ℚ) (ops : List AC) (res : AMap) (s : Slater) (v : ℚ)
    (h : KeysNodup res) : KeysNodup (applySource fac ops res s v) := by
  rw [applySource]
  cases threadTerm ops [(s, v)] with
  | none => exact h
  | some tmp => exact keysNodup_foldl_entryAdd fac tmp res h

theorem keysNodup_applyTermFold (fac : ℚ) (ops : List AC) (sources : AMap) :
    ∀ res : AMap, KeysNodup res → KeysNodup (applyTermFold res fac ops sources) := by
  induction sources with
  | nil => intro res h; exact h
  | cons p rest ih =>
    intro res h
    exact ih _ (keysNodup_applySource fac ops res p.1 p.2 h)

theorem keysNodup_applyRaw (st : State) (op : Operator) : KeysNodup (st.applyRaw op) := by
  rw [State.applyRaw]
  have haux : ∀ (terms : List (ℚ × List AC)) (res : AMap), KeysNodup res →
      KeysNodup (terms.foldl
        (fun r t => applyTermFold r t.1 t.2.reverse st.amplitudes) res) := by
    intro terms
    induction terms with
    | nil => intro res h; exact h
    | cons t rest ih =>
      intro res h
      exact ih _ (keysNodup_applyTermFold t.1 t.2.reverse st.amplitudes res h)
  exact haux op.terms [] keysNodup_nil

/-! ## Claim C6: State pruning and key-uniqueness invariants -/

/-- C6 counterexample: `State::new` performs no pruning, so the State
built from the single pair `(determinant 3, amplitude 0)` stores an
entry whose amplitude has absolute value at most the tolerance. -/
theorem claim_C6_counterexample :
    (State.new [(Slater.new 3, 0)]).amplitudes = [(Slater.new 3, 0)] ∧ |(0 : ℚ)| ≤ eps := by
  constructor
  · rfl
  · rw [abs_zero, eps]
    positivity

/-- C6 (amended): every State returned by `State::apply` contains no
entry with `|amplitude| ≤ eps` and at most one entry per Determinant;
a State built by `State::new` contains at most one entry per
Determinant, but stores the supplied amplitudes without pruning. -/
theorem claim_C6_amended :
    (∀ (st : State) (op : Operator),
        KeysNodup (st.apply op).amplitudes ∧
        ∀ p ∈ (st.apply op).amplitudes, eps < |p.2|) ∧
    (∀ l : List (Slater × ℚ), KeysNodup (State.new l).amplitudes) := by
  constructor
  · intro st op
    constructor
    · exact keysNodup_retainAbove _ (keysNodup_applyRaw st op)
    · intro p hp
      rw [State.apply, retainAbove] at hp
      have := List.of_mem_filter hp
      exact of_decide_eq_true this
  · intro l
    have haux : ∀ (l2 : List (Slater × ℚ)) (res : AMap), KeysNodup res →
        KeysNodup (l2.foldl (fun m p => insertPair m p.1 p.2) res) := by
      intro l2
      induction l2 with
      | nil => intro res h; exact h
      | cons p rest ih =>
        intro res h
        exact ih _ (keysNodup_insertPair _ _ _ h)
    exact haux l [] keysNodup_nil

theorem claim_C6_amended_witness :
    KeysNodup ((State.new [(Slater.new 0, 1)]).apply
      (Operator.new [(1, [])])).amplitudes ∧
    KeysNodup (State.new [(Slater.new 3, 0)]).amplitudes :=
  ⟨(claim_C6_amended.1 (State.new [(Slater.new 0, 1)]) (Operator.new [(1, [])])).1,
    claim_C6_amended.2 [(Slater.new 3, 0)]⟩

/-! ## Claim C8: from_vec duplicate detection -/

theorem fromVecAux_ok (arr : List Nat) :
    ∀ (index : Nat) (added : List Nat), arr.Nodup → (∀ a ∈ arr, a ∉ added) →
      ∃ s, fromVecAux arr index added = Except.ok s := by
  induction arr with
  | nil => exact fun index added _ _ => ⟨⟨index⟩, rfl⟩
  | cons i rest ih =>
    intro index added hnd hdisj
    have hi : i ∉ added := hdisj i (by simp)
    rw [fromVecAux]
    simp only [if_neg hi]
    apply ih
    · exact (List.nodup_cons.mp hnd).2
    · intro a ha
      rw [List.mem_orderedInsert]
      push_neg
      constructor
      · intro hai
        subst hai
        exact absurd ha (List.nodup_cons.mp hnd).1
      · exact hdisj a (List.mem_cons_of_mem i ha)

theorem fromVecAux_err (arr : List Nat) :
    ∀ (index : Nat) (added : List Nat), (¬ arr.Nodup ∨ ∃ a ∈ arr, a ∈ added) →
      fromVecAux arr index added = Except.error ("State array contains repeated index!") := by
  induction arr with
  | nil =>
    intro index added h
    rcases h with h | ⟨a, ha, _⟩
    · exact absurd List.nodup_nil h
    · exact absurd ha (List.not_mem_nil a)
  | cons i rest ih =>
    intro index added h
    by_cases hi : i ∈ added
    · rw [fromVecAux]
      simp only [if_pos hi]
    · rw [fromVecAux]
      simp only [if_neg hi]
      apply ih
      rcases h with h | ⟨a, ha, haa⟩
      · rw [List.nodup_cons] at h
        push_neg at h
        by_cases hir : i ∈ rest
        · refine Or.inr ⟨i, hir, ?_⟩
          rw [List.mem_orderedInsert]
          exact Or.inl rfl
        · exact Or.inl (h hir)
      · rcases List.mem_cons.mp ha with rfl | har
        · exact absurd haa hi
        · refine Or.inr ⟨a, har, ?_⟩
          rw [List.mem_orderedInsert]
          exact Or.inr haa

/-- C8: for every index list (of in-range indices) containing a
duplicate, `Slater::from_vec` returns the construction error with its
descriptive message, and for every duplicate-free list it succeeds. -/
theorem claim_C8 (arr : List Nat) (_hb : ∀ i ∈ arr, i < 64) :
    (¬ arr.Nodup →
        Slater.fromVec arr = Except.error ("State array contains repeated index!")) ∧
    (arr.Nodup → ∃ s, Slater.fromVec arr = Except.ok s) := by
  constructor
  · intro h
    exact fromVecAux_err arr 0 [] (Or.inl h)
  · intro h
    exact fromVecAux_ok arr 0 [] h (fun a _ ha => (List.not_mem_nil a) ha)

theorem claim_C8_witness :
    (Slater.fromVec [0, 1, 0] = Except.error ("State array contains repeated index!")) ∧
      ∃ s, Slater.fromVec [0, 1, 2] = Except.ok s :=
  ⟨(claim_C8 [0, 1, 0] (by decide)).1 (by decide),
    (claim_C8 [0, 1, 2] (by decide)).2 (by decide)⟩

/-! ## Claim C2: the number-operator fixture -/

theorem decide_eps_lt_abs_pos : (decide (eps < |(33 : ℚ)/100|)) = true := by
  rw [decide_eq_true_eq, eps, abs_of_nonneg (by norm_num : (0:ℚ) ≤ 33/100)]
  norm_num

theorem decide_eps_lt_abs_neg :
    (decide (eps < |(33 : ℚ)/100 * ((-1 : Int) : ℚ)|)) = true := by
  rw [decide_eq_true_eq, eps, abs_of_nonpos (by norm_num : (33:ℚ)/100 * ((-1 : Int) : ℚ) ≤ 0)]
  norm_num

/-- C2 counterexample: on the fixture State `{7: 0.33, 2: 0.33,
14: 0.33}` the number-operator term `[Create(1), Annihilate(1)]`
produces amplitude `-0.33` at determinant 2 (the claim says no entry:
bit 1 of `2 = 0b10` is in fact set) and `-0.33` at determinant 7 (the
claim says `+0.33`: the code's create-sign counts unoccupied bits below
the position, which yields net phase `-1` here). -/
theorem claim_C2_counterexample :
    valFind (State.apply
        (State.new [(Slater.new 7, 33/100), (Slater.new 2, 33/100), (Slater.new 14, 33/100)])
        (Operator.new [(1, [AC.Create 1, AC.Annihilate 1])])).amplitudes (Slater.new 2)
      = some (-(33/100)) ∧
    valFind (State.apply
        (State.new [(Slater.new 7, 33/100), (Slater.new 2, 33/100), (Slater.new 14, 33/100)])
        (Operator.new [(1, [AC.Create 1, AC.Annihilate 1])])).amplitudes (Slater.new 7)
      = some (-(33/100)) := by
  have hres : (State.apply
      (State.new [(Slater.new 7, 33/100), (Slater.new 2, 33/100), (Slater.new 14, 33/100)])
      (Operator.new [(1, [AC.Create 1, AC.Annihilate 1])])).amplitudes
      = [(Slater.new 7, -(33/100)), (Slater.new 2, -(33/100)), (Slater.new 14, -(33/100))] := by
    simp +decide [State.apply, State.applyRaw, State.new, Operator.new, applyTermFold,
      applySource, threadTerm, stepPairs, insertPair, entryAdd, retainAbove, Slater.apply,
      Slater.create, Slater.annihilate, Slater.new, decide_eps_lt_abs_pos, decide_eps_lt_abs_neg]
  rw [hres]
  constructor
  · rw [valFind, if_neg (by decide), valFind, if_pos (by decide)]
  · rw [valFind, if_pos (by decide)]

/-- C2 (amended): the number-operator term `[Create(1), Annihilate(1)]`
applied to the State `{7: 0.33, 2: 0.33, 14: 0.33}` yields exactly the
State `{7: -0.33, 2: -0.33, 14: -0.33}`: site 1 is occupied in all
three determinants (including `2 = 0b10`), and the code's sign
convention (unoccupied-parity for create, occupied-parity for
annihilate) gives net phase `-1` on each. -/
theorem claim_C2_amended :
    (State.apply
      (State.new [(Slater.new 7, 33/100), (Slater.new 2, 33/100), (Slater.new 14, 33/100)])
      (Operator.new [(1, [AC.Create 1, AC.Annihilate 1])])).amplitudes
    = [(Slater.new 7, -(33/100)), (Slater.new 2, -(33/100)), (Slater.new 14, -(33/100))] := by
  simp +decide [State.apply, State.applyRaw, State.new, Operator.new, applyTermFold,
    applySource, threadTerm, stepPairs, insertPair, entryAdd, retainAbove, Slater.apply,
    Slater.create, Slater.annihilate, Slater.new, decide_eps_lt_abs_pos, decide_eps_lt_abs_neg]

/-! ## Claim C10: working sets never exceed one entry -/

theorem stepPairs_singleton_length (c : AC) (tmp : List (Slater × ℚ)) (h : tmp.length ≤ 1)
    (next : AMap) (hn : stepPairs c tmp [] = some next) : next.length ≤ 1 := by
  match tmp with
  | [] =>
    rw [stepPairs] at hn
    cases hn
    simp
  | [p] =>
    cases happ : p.1.apply c with
    | none => simp [stepPairs, happ] at hn
    | some pns =>
      simp only [stepPairs, happ] at hn
      cases hn
      simp [entryAdd]
  | p :: q :: rest => simp at h

theorem retainAbove_length_le (m : AMap) : (retainAbove m).length ≤ m.length :=
  List.length_filter_le _ m

theorem threadSets_length (ops : List AC) :
    ∀ tmp : AMap, tmp.length ≤ 1 → ∀ m ∈ threadSets ops tmp, m.length ≤ 1 := by
  induction ops with
  | nil =>
    intro tmp h m hm
    rw [threadSets, List.mem_singleton] at hm
    subst hm
    exact h
  | cons c cs ih =>
    intro tmp h m hm
    cases hstep : stepPairs c tmp [] with
    | none =>
      simp only [threadSets, hstep, List.mem_singleton] at hm
      subst hm
      exact h
    | some next =>
      simp only [threadSets, hstep, List.mem_cons] at hm
      rcases hm with rfl | hm
      · exact h
      · exact ih (retainAbove next)
          (le_trans (retainAbove_length_le next)
            (stepPairs_singleton_length c tmp h next hstep)) m hm

theorem threadTerm_length (ops : List AC) :
    ∀ tmp : AMap, tmp.length ≤ 1 → ∀ m, threadTerm ops tmp = some m → m.length ≤ 1 := by
  induction ops with
  | nil =>
    intro tmp h m hm
    rw [threadTerm] at hm
    cases hm
    exact h
  | cons c cs ih =>
    intro tmp h m hm
    cases hstep : stepPairs c tmp [] with
    | none => simp [threadTerm, hstep] at hm
    | some next =>
      simp only [threadTerm, hstep] at hm
      exact ih (retainAbove next)
        (le_trans (retainAbove_length_le next)
          (stepPairs_singleton_length c tmp h next hstep)) m hm

/-- C10: while threading one term of `State::apply` from its singleton
initial working set `{(source, amplitude)}`, every intermediate working
set — and the final one — contains at most one entry, because
`Slater::apply` maps each determinant to at most one result; the
multi-entry fan-out described in the spec never occurs. -/
theorem claim_C10 (ops : List AC) (s : Slater) (v : ℚ) :
    (∀ m ∈ threadSets ops [(s, v)], m.length ≤ 1) ∧
    (∀ m, threadTerm ops [(s, v)] = some m → m.length ≤ 1) :=
  ⟨threadSets_length ops [(s, v)] (by simp),
    threadTerm_length ops [(s, v)] (by simp)⟩

theorem claim_C10_witness :
    [(Slater.new 0, (1 : ℚ))].length ≤ 1 ∧ [(Slater.new 0, (1 : ℚ))].length ≤ 1 :=
  ⟨(claim_C10 [] (Slater.new 0) 1).1 [(Slater.new 0, 1)] (by simp [threadSets]),
    (claim_C10 [] (Slater.new 0) 1).2 [(Slater.new 0, 1)] rfl⟩

/-! ## Claim C5: a failing branch removes only its own contribution -/

theorem threadTerm_nil_set (ops : List AC) : threadTerm ops [] = some [] := by
  induction ops with
  | nil => rfl
  | cons c cs ih =>
    simp only [threadTerm, stepPairs]
    exact ih

theorem threadTermBranch_singleton (ops : List AC) :
    ∀ tmp : AMap, tmp.length ≤ 1 →
      threadTermBranch ops tmp = (threadTerm ops tmp).getD [] := by
  induction ops with
  | nil => intro tmp _; rfl
  | cons c cs ih =>
    intro tmp h
    match tmp with
    | [] =>
      simp only [threadTermBranch, threadTerm, stepPairs, stepPairsBranch]
      rw [show retainAbove [] = [] from rfl]
      rw [ih [] (by simp), threadTerm_nil_set]
    | [p] =>
      cases happ : p.1.apply c with
      | some pns =>
        simp only [threadTermBranch, threadTerm, stepPairs, stepPairsBranch, happ]
        exact ih _ (le_trans (retainAbove_length_le _) (by simp [entryAdd]))
      | none =>
        simp only [threadTermBranch, threadTerm, stepPairs, stepPairsBranch, happ]
        rw [show retainAbove [] = [] from rfl]
        rw [ih [] (by simp), threadTerm_nil_set]
        rfl
    | p :: q :: rest => simp at h

theorem applySourceBranch_eq (fac : ℚ) (ops : List AC) (res : AMap) (s : Slater) (v : ℚ) :
    applySourceBranch fac ops res s v = applySource fac ops res s v := by
  rw [applySourceBranch, applySource, threadTermBranch_singleton ops [(s, v)] (by simp)]
  cases threadTerm ops [(s, v)] with
  | none => rfl
  | some tmp => rfl

theorem applyTermFoldBranch_eq (fac : ℚ) (ops : List AC) (sources : AMap) :
    ∀ res, applyTermFoldBranch res fac ops sources = applyTermFold res fac ops sources := by
  induction sources with
  | nil => intro res; rfl
  | cons p rest ih =>
    intro res
    show applyTermFoldBranch (applySourceBranch fac ops res p.1 p.2) fac ops rest
        = applyTermFold (applySource fac ops res p.1 p.2) fac ops rest
    rw [applySourceBranch_eq]
    exact ih _

theorem termsFoldBranch_eq (st : State) (terms : List (ℚ × List AC)) :
    ∀ res, terms.foldl (fun r t => applyTermFoldBranch r t.1 t.2.reverse st.amplitudes) res
      = terms.foldl (fun r t => applyTermFold r t.1 t.2.reverse st.amplitudes) res := by
  induction terms with
  | nil => intro res; rfl
  | cons t rest ih =>
    intro res
    show rest.foldl _ (applyTermFoldBranch res t.1 t.2.reverse st.amplitudes)
        = rest.foldl _ (applyTermFold res t.1 t.2.reverse st.amplitudes)
    rw [applyTermFoldBranch_eq]
    exact ih _

/-- C5: `State::apply` computes exactly the same result as the
per-branch semantics in which a failing `apply_elementary` removes only
the failing pair while the other pairs of the working set continue to
be processed and accumulated (the `continue 'states` abort is
unobservable, the working set being a singleton). -/
theorem claim_C5 (st : State) (op : Operator) : st.applyBranch op = st.apply op := by
  rw [State.applyBranch, State.apply, State.applyRaw, termsFoldBranch_eq]

/-! ## Claim C1: the accumulated amplitude is the path sum -/

theorem apply_phase_pm (s : Slater) (c : AC) (p : Int) (ns : Slater)
    (h : s.apply c = some (p, ns)) : p = 1 ∨ p = -1 := by
  cases c with
  | Create pos =>
    cases hc : s.create pos with
    | none => simp [Slater.apply, hc] at h
    | some n2 =>
      simp only [Slater.apply, hc] at h
      split at h
      · simp only [Option.some.injEq, Prod.mk.injEq] at h
        exact Or.inl h.1.symm
      · simp only [Option.some.injEq, Prod.mk.injEq] at h
        exact Or.inr h.1.symm
  | Annihilate pos =>
    cases hc : s.annihilate pos with
    | none => simp [Slater.apply, hc] at h
    | some n2 =>
      simp only [Slater.apply, hc] at h
      split at h
      · simp only [Option.some.injEq, Prod.mk.injEq] at h
        exact Or.inl h.1.symm
      · simp only [Option.some.injEq, Prod.mk.injEq] at h
        exact Or.inr h.1.symm

theorem threadTerm_singleton (ops : List AC) :
    ∀ (s : Slater) (v : ℚ), eps < |v| →
      threadTerm ops [(s, v)]
        = (chainApply ops s).map (fun q => [(q.2, v * (q.1 : ℚ))]) := by
  induction ops with
  | nil =>
    intro s v _
    simp [threadTerm, chainApply]
  | cons c cs ih =>
    intro s v hv
    cases happ : s.apply c with
    | none => simp [threadTerm, stepPairs, chainApply, happ]
    | some pns =>
      obtain ⟨ph, ns⟩ := pns
      have hpm := apply_phase_pm s c ph ns happ
      have habs : |v * (ph : ℚ)| = |v| := by
        rcases hpm with h1 | h1 <;> subst h1 <;> simp [abs_mul]
      have hv2 : eps < |v * (ph : ℚ)| := by rw [habs]; exact hv
      have hretain : retainAbove [(ns, v * (ph : ℚ))] = [(ns, v * (ph : ℚ))] := by
        rw [retainAbove, List.filter_cons, if_pos (decide_eq_true hv2)]
        rfl
      simp only [threadTerm, stepPairs, chainApply, happ]
      rw [show entryAdd [] ns (v * (ph : ℚ)) = [(ns, v * (ph : ℚ))] from rfl]
      rw [hretain, ih ns (v * (ph : ℚ)) hv2]
      cases hchain : chainApply cs ns with
      | none => simp
      | some q =>
        simp only [Option.map_some']
        congr 1
        have : ((ph * q.1 : Int) : ℚ) = (ph : ℚ) * (q.1 : ℚ) := by push_cast; ring
        rw [this, mul_assoc]

theorem valAt_applySource (fac : ℚ) (ops : List AC) (res : AMap) (s : Slater) (v : ℚ)
    (hv : eps < |v|) (d : Slater) :
    valAt (applySource fac ops res s v) d = valAt res d + pathContrib fac ops d (s, v) := by
  rw [applySource, threadTerm_singleton ops s v hv]
  cases hchain : chainApply ops s with
  | none => simp [pathContrib, hchain]
  | some q =>
    simp only [pathContrib, hchain, Option.map_some']
    rw [show ([(q.2, v * (q.1 : ℚ))].foldl (fun r p => entryAdd r p.1 (fac * p.2)) res)
        = entryAdd res q.2 (fac * (v * (q.1 : ℚ))) from rfl]
    rw [valAt_entryAdd]
    congr 1
    by_cases hqd : q.2 = d
    · rw [if_pos hqd.symm, if_pos hqd]
      ring
    · rw [if_neg (fun hh => hqd hh.symm), if_neg hqd]

theorem valAt_applyTermFold (fac : ℚ) (ops : List AC) (sources : AMap) :
    ∀ res d, (∀ p ∈ sources, eps < |p.2|) →
      valAt (applyTermFold res fac ops sources) d
        = valAt res d + (sources.map (pathContrib fac ops d)).sum := by
  induction sources with
  | nil => intro res d _; simp [applyTermFold]
  | cons p rest ih =>
    intro res d hv
    have hp : eps < |p.2| := hv p (by simp)
    have hrest : ∀ q ∈ rest, eps < |q.2| := fun q hq => hv q (List.mem_cons_of_mem p hq)
    show valAt (applyTermFold (applySource fac ops res p.1 p.2) fac ops rest) d = _
    rw [ih _ d hrest, valAt_applySource fac ops res p.1 p.2 hp d]
    simp only [List.map_cons, List.sum_cons]
    ring

theorem valAt_termsFold (st : State) (terms : List (ℚ × List AC))
    (hv : ∀ p ∈ st.amplitudes, eps < |p.2|) :
    ∀ res d, valAt (terms.foldl
        (fun r t => applyTermFold r t.1 t.2.reverse st.amplitudes) res) d
      = valAt res d
        + (terms.map
            (fun t => (st.amplitudes.map (pathContrib t.1 t.2.reverse d)).sum)).sum := by
  induction terms with
  | nil => intro res d; simp
  | cons t rest ih =>
    intro res d
    show valAt (rest.foldl _ (applyTermFold res t.1 t.2.reverse st.amplitudes)) d = _
    rw [ih _ d, valAt_applyTermFold t.1 t.2.reverse st.amplitudes _ d hv]
    simp only [List.map_cons, List.sum_cons]
    ring

theorem eps_pos : 0 < eps := by
  rw [eps]
  positivity

/-- C1 counterexample: with input State `{determinant 0 : 1}` and the
one-term operator `(eps, [Create(0)])`, the (term, source) path sum at
output determinant 1 is `eps`, yet the State returned by `State::apply`
is empty — the final pruning drops the stored amplitude, so the stored
amplitude does not equal the path sum. -/
theorem claim_C1_counterexample :
    specSum (State.new [(Slater.new 0, 1)]) (Operator.new [(eps, [AC.Create 0])])
        (Slater.new 1) = eps ∧
    (State.apply (State.new [(Slater.new 0, 1)])
        (Operator.new [(eps, [AC.Create 0])])).amplitudes = [] := by
  have hone : (decide (eps < |(1 : ℚ)|)) = true := by
    rw [decide_eq_true_eq, abs_one, eps]
    norm_num
  have heps : (decide (eps < |eps|)) = false := by
    rw [decide_eq_false_iff_not, abs_of_nonneg (le_of_lt eps_pos)]
    exact lt_irrefl eps
  constructor
  · simp +decide [specSum, pathContrib, chainApply, Slater.apply, Slater.create,
      State.new, Operator.new, insertPair, Slater.new]
  · simp +decide [State.apply, State.applyRaw, State.new, Operator.new, applyTermFold,
      applySource, threadTerm, stepPairs, insertPair, entryAdd, retainAbove, Slater.apply,
      Slater.create, Slater.new, hone, heps]
    intro a b hmem
    simp only [List.filter_cons, List.filter_nil, hone, if_pos] at hmem
    rw [show List.foldl (fun r p => entryAdd r p.1 (eps * p.2)) [] [(Slater.mk 1, 1)]
        = [(Slater.mk 1, eps * 1)] from rfl, List.mem_singleton, Prod.mk.injEq] at hmem
    rw [hmem.2, mul_one, abs_of_nonneg (le_of_lt eps_pos)]

/-- C1 (amended): for every input State whose stored amplitudes all
exceed the tolerance in absolute value, the amplitude accumulated by
`State::apply` at each output Determinant before the final pruning
equals the sum of `weight × phase_product × source_amplitude` over
every (term, source) combination whose elementary-operator chain
succeeds and ends at that Determinant, each path counted exactly once;
the returned State then stores exactly the accumulated entries whose
absolute value exceeds the tolerance. -/
theorem claim_C1_amended (st : State) (op : Operator) (d : Slater)
    (hv : ∀ p ∈ st.amplitudes, eps < |p.2|) :
    valAt (st.applyRaw op) d = specSum st op d ∧
    valFind (st.apply op).amplitudes d
      = if eps < |specSum st op d| then some (specSum st op d) else none := by
  have h1 : valAt (st.applyRaw op) d = specSum st op d := by
    rw [State.applyRaw, specSum, valAt_termsFold st op.terms hv [] d, valAt_nil, zero_add]
  refine ⟨h1, ?_⟩
  rw [State.apply]
  show valFind (retainAbove (st.applyRaw op)) d = _
  rw [valFind_retainAbove _ _ (keysNodup_applyRaw st op)]
  cases hfind : valFind (st.applyRaw op) d with
  | none =>
    have hv0 : valAt (st.applyRaw op) d = 0 := by
      rw [valAt, hfind]
      rfl
    have hs : specSum st op d = 0 := by rw [← h1, hv0]
    rw [hs, abs_zero, if_neg (not_lt_of_le (le_of_lt eps_pos))]
    rfl
  | some v =>
    have hvv : valAt (st.applyRaw op) d = v := by
      rw [valAt, hfind]
      rfl
    have hs : specSum st op d = v := by rw [← h1, hvv]
    rw [hs]
    rfl

theorem claim_C1_amended_witness :
    valAt ((State.new [(Slater.new 0, 1)]).applyRaw (Operator.new [(1, [AC.Create 0])]))
        (Slater.new 1)
      = specSum (State.new [(Slater.new 0, 1)]) (Operator.new [(1, [AC.Create 0])])
          (Slater.new 1) ∧
    valFind ((State.new [(Slater.new 0, 1)]).apply
        (Operator.new [(1, [AC.Create 0])])).amplitudes (Slater.new 1)
      = if eps < |specSum (State.new [(Slater.new 0, 1)])
            (Operator.new [(1, [AC.Create 0])]) (Slater.new 1)|
        then some (specSum (State.new [(Slater.new 0, 1)])
          (Operator.new [(1, [AC.Create 0])]) (Slater.new 1))
        else none :=
  claim_C1_amended (State.new [(Slater.new 0, 1)]) (Operator.new [(1, [AC.Create 0])])
    (Slater.new 1)
    (by
      intro p hp
      rw [show (State.new [(Slater.new 0, 1)]).amplitudes = [(Slater.new 0, 1)] from rfl,
        List.mem_singleton] at hp
      subst hp
      rw [abs_one, eps]
      norm_num)

end RustEd
